import Mathlib

/-!
Shallow embedding of `src/src/hyperloglogplus.h` (KrakenUniq's
HyperLogLogPlusMinus counter) and proofs about it.

Machine integers are modelled as `Nat` with explicit `% 2^32` / `% 2^64`
where C++ overflow or truncation matters.  `double` values are modelled as
real numbers (`ℝ`), and the nonnegative extended-double arithmetic of the
Ertl estimator (where `+inf` arises and propagates) as `ℝ≥0∞`.
-/

namespace HLLPP

/-- Bit length of `n`, with explicit fuel so that the kernel can evaluate it. -/
def bitlenF : Nat → Nat → Nat
  | 0, _ => 0
  | fuel + 1, n => if n = 0 then 0 else bitlenF fuel (n / 2) + 1

/-- `clz` on `uint64_t` (source lines 294-297): 64 for zero, else leading zeros. -/
def clz64 (x : Nat) : Nat := 64 - bitlenF 64 x

/-- `clz` on `uint32_t` (source lines 289-292): 32 for zero, else leading zeros. -/
def clz32 (x : Nat) : Nat := 32 - bitlenF 32 x

/-- `extractHighBits` for `uint64_t` (source line 199): `bits >> (64 - hi)`. -/
def extractHighBits64 (bits hi : Nat) : Nat := bits >>> (64 - hi)

/-- `extractHighBits` for `uint32_t` (source line 203): `bits >> (32 - hi)`. -/
def extractHighBits32 (bits hi : Nat) : Nat := bits >>> (32 - hi)

/-- `get_trailing_ones<T>(p)` (source line 694): `(1 << p) - 1`. -/
def get_trailing_ones (p : Nat) : Nat := (1 <<< p) - 1

/-- `get_index(uint64_t, p)` (source line 683): the top `p` bits of the hash. -/
def get_index64 (hash_value p : Nat) : Nat := hash_value >>> (64 - p)

/-- `get_index(uint32_t, p)` (source line 688): the top `p` bits of the word. -/
def get_index32 (hash_value p : Nat) : Nat := hash_value >>> (32 - p)

/-- `get_rank(uint64_t, p)` (source lines 709-716); the shift `hash << p` is
64-bit, hence the `% 2^64`. -/
def get_rank64 (hash_value p : Nat) : Nat :=
  clz64 (((hash_value <<< p) % 2 ^ 64) ||| get_trailing_ones p) + 1

/-- `get_rank(uint32_t, p)` (source lines 698-706); the shift is 32-bit. -/
def get_rank32 (hash_value p : Nat) : Nat :=
  clz32 (((hash_value <<< p) % 2 ^ 32) ||| get_trailing_ones p) + 1

/-- `extractBits<uint32_t>(value, hi, lo)` with `shift_left = false`
(source lines 174-195). -/
def extractBits32 (value hi lo : Nat) : Nat :=
  (value &&& (((1 <<< (hi - lo)) - 1) <<< lo)) >>> lo

/-- `pPrime = 25` (source line 338). -/
def pPrime : Nat := 25

/-- `mPrime = 1 << (pPrime - 1)` (source line 340).  Note that this is
`2 ^ 24`, although the source comment says `2^pPrime`. -/
def mPrime : Nat := 1 <<< (pPrime - 1)

/-- `encodeHashIn32Bit` (source lines 799-823), parameterised by the member
precision `p` used in the flag test `idx << p == 0` (a 32-bit shift). -/
def encodeHashIn32Bit (p hash_value : Nat) : Nat :=
  let idx := ((extractHighBits64 hash_value pPrime) <<< (32 - pPrime)) % 2 ^ 32
  if (idx <<< p) % 2 ^ 32 = 0 then
    idx ||| ((get_rank64 hash_value pPrime) <<< 1) ||| 1
  else
    idx

/-- `getIndexAndRankFromEncodedHash` (source lines 842-861), returning the
pair `(idx, rank)`, parameterised by the member precision `p`. -/
def getIndexAndRankFromEncodedHash (p encoded_hash_value : Nat) : Nat × Nat :=
  let idx := get_index32 encoded_hash_value p
  if encoded_hash_value % 2 = 1 then
    (idx, (pPrime - p) + extractBits32 encoded_hash_value 7 1)
  else
    (idx, get_rank32 encoded_hash_value p)

/-- `murmurhash3_finalizer` (source lines 114-122); 64-bit wrap-around
arithmetic is modelled by `% 2^64`. -/
def murmurhash3_finalizer (key : Nat) : Nat :=
  let k1 := (key + 1) % 2 ^ 64
  let k2 := k1 ^^^ (k1 >>> 33)
  let k3 := (k2 * 0xff51afd7ed558ccd) % 2 ^ 64
  let k4 := k3 ^^^ (k3 >>> 33)
  let k5 := (k4 * 0xc4ceb9fe1a85ec53) % 2 ^ 64
  k5 ^^^ (k5 >>> 33)

/-- State of a `HyperLogLogPlusMinus<uint64_t>` instance. -/
@[ext]
structure HLL where
  p : Nat
  sparse : Bool
  sparseList : Finset Nat
  M : Nat → Nat

/-- `m = 1 << p` (source line 332). -/
def HLL.m (st : HLL) : Nat := 1 <<< st.p

/-- The constructor (source lines 352-366): both representations start empty;
an empty register vector reads as all-zero. -/
def HyperLogLogPlusMinus (precision : Nat) (sparse : Bool) : HLL :=
  ⟨precision, sparse, ∅, fun _ => 0⟩

/-- `insert_hash` on the `unordered_set` `SparseListType` (source lines
209-214): a plain set insert; the `pPrime` argument is ignored ("this
implementation currently does not check if there is a value for an index of
length pPrime"). -/
def insert_hash (uset : Finset Nat) (val : Nat) (_pPrime : Nat) : Finset Nat :=
  insert val uset

/-- The register max-update `if (rank > M[idx]) M[idx] = rank` (source lines
405-407 and 457-459). -/
def registerUpdate (M : Nat → Nat) (idx rank : Nat) : Nat → Nat :=
  fun i => if i = idx then (if rank > M idx then rank else M idx) else M i

/-- `addToRegisters` (source lines 448-461): decode every stored word and
max-fold it into the registers.  `unordered_set` iteration order is
unspecified, so we use the order-insensitive denotation: each register gets
the maximum of its old value and the ranks of the entries decoding to it. -/
def addToRegisters (p : Nat) (M : Nat → Nat) (s : Finset Nat) : Nat → Nat :=
  fun idx => max (M idx)
    (s.sup fun e => if (getIndexAndRankFromEncodedHash p e).1 = idx
      then (getIndexAndRankFromEncodedHash p e).2 else 0)

/-- `switchToNormalRepresentation` (source lines 429-443): fresh zero
registers, fold the sparse list in, clear it, leave sparse mode. -/
def switchToNormalRepresentation (st : HLL) : HLL :=
  { st with sparse := false,
            M := addToRegisters st.p (fun _ => 0) st.sparseList,
            sparseList := ∅ }

/-- `add(T_KEY item)` (source lines 372-409). -/
def HLL.add (st : HLL) (item : Nat) : HLL :=
  let hash_value := murmurhash3_finalizer item
  if st.sparse then
    let st2 := { st with
      sparseList := insert_hash st.sparseList (encodeHashIn32Bit st.p hash_value) pPrime }
    if st2.sparseList.card > st2.m / 4 then switchToNormalRepresentation st2 else st2
  else
    { st with M := registerUpdate st.M (get_index64 hash_value st.p)
                     (get_rank64 hash_value st.p) }

/-- `reset()` (source lines 420-424): back to sparse with empty list; the
cleared register vector again reads as all-zero. -/
def HLL.reset (st : HLL) : HLL :=
  { st with sparse := true, sparseList := ∅, M := fun _ => 0 }

/-- The non-throwing part of `merge` (source lines 472-496). -/
def mergeBody (a other : HLL) : HLL :=
  if a.sparse ∧ other.sparse then
    if a.sparseList.card + other.sparseList.card > a.m then
      let a2 := switchToNormalRepresentation a
      { a2 with M := addToRegisters a2.p a2.M other.sparseList }
    else
      { a with sparseList := a.sparseList ∪ other.sparseList }
  else if other.sparse then
    { a with M := addToRegisters a.p a.M other.sparseList }
  else
    let a2 := if a.sparse then switchToNormalRepresentation a else a
    { a2 with M := fun i => if other.M i > a2.M i then other.M i else a2.M i }

/-- `merge(other)` (source lines 467-497): throws `invalid_argument` before
touching any state when the precisions differ.  The boolean records whether
the exception was thrown; on `true` the returned state is the receiver,
unchanged. -/
def merge (a other : HLL) : HLL × Bool :=
  if a.p ≠ other.p then (a, true) else (mergeBody a other, false)

/-- The empirical threshold table (source lines 60-76), indexed by `p - 4`. -/
def threshold : List Nat :=
  [10, 20, 40, 80, 220, 400, 900, 1800, 3100, 6500, 11500, 20000, 50000, 120000, 350000]

/-- `linearCounting(m, v)` (source lines 88-93).  The `v > m` guard throws
`invalid_argument`; every use below has `v ≤ m`. -/
noncomputable def linearCounting (m v : Nat) : ℝ :=
  (m : ℝ) * Real.log ((m : ℝ) / (v : ℝ))

/-- `alpha(m)` (source lines 145-154). -/
noncomputable def alpha (m : Nat) : ℝ :=
  if m = 16 then 0.673
  else if m = 32 then 0.697
  else if m = 64 then 0.709
  else 0.7213 / (1 + 1.079 / (m : ℝ))

/-- `countZeros` (source lines 167-169) over the `m` registers. -/
def countZeros (M : Nat → Nat) (m : Nat) : Nat :=
  ((Finset.range m).filter fun i => M i = 0).card

/-- `calculateRawEstimate` (source lines 159-165). -/
noncomputable def calculateRawEstimate (M : Nat → Nat) (m : Nat) : ℝ :=
  alpha m * ((m : ℝ) * m) * 1 / ∑ i in Finset.range m, (1 : ℝ) / 2 ^ M i

/-- `cardinality()` (source lines 513-547), the Heule estimator.  The bias
table interpolation `getEstimateBias` reads arrays from `hyperloglogbias.h`,
which is not among this repository's sources; the spec treats the tables as
supplied constants, so the bias function is a parameter here.  In sparse
mode the source computes `mPrime - uint32_t(sparseList.size())` in `uint32_t`;
the wrap-around for `size > mPrime` (unreachable, as the list is promoted
far below `mPrime` entries) is not modelled. -/
noncomputable def cardinality (bias : ℝ → ℝ) (st : HLL) : Nat :=
  if st.sparse then
    (⌊linearCounting mPrime (mPrime - st.sparseList.card)⌋).toNat
  else
    let v := countZeros st.M st.m
    let lc_estimate := (⌊linearCounting st.m v⌋).toNat
    if v ≠ 0 ∧ (lc_estimate : ℝ) ≤ (threshold.getD (st.p - 4) 0 : ℝ) then
      lc_estimate
    else
      let est := calculateRawEstimate st.M st.m
      let est2 := if est ≤ (st.m : ℝ) * 5 then est - bias est else est
      (round est2).toNat

/-- `registerHistogram` (source lines 558-575): `C[k] = #{i < m | M[i] = k}`. -/
def registerHistogram (M : Nat → Nat) (m : Nat) : Nat → Nat :=
  fun k => ((Finset.range m).filter fun i => M i = k).card

/-- `sparseRegisterHistogram` (source lines 577-586): `C[0]` starts at `m` and
is decremented once per stored word; every stored word's decoded rank is
counted (decoded ranks are always positive, so bin 0 never receives one). -/
def sparseRegisterHistogram (p : Nat) (sparseList : Finset Nat) (m : Nat) : Nat → Nat :=
  fun k =>
    if k = 0 then m - sparseList.card
    else (sparseList.filter fun e => (getIndexAndRankFromEncodedHash p e).2 = k).card

/-- `sigma(x)` (source lines 591-605).  The early exit `sigma(1.0) = +inf` is
modelled exactly; the do-while loop iterates doubles to a floating-point
fixpoint, and its own comment states the value it approximates,
`sigma := x + sum[k=1..Inf] x^(2^k) * 2^(k-1)`, which is the value used here. -/
noncomputable def sigma (x : ENNReal) : ENNReal :=
  if x = 1 then ⊤
  else x + tsum (fun k : ℕ => x ^ 2 ^ (k + 1) * 2 ^ k)

/-- `tau(x)` (source lines 623-637); early exits at `0` and `1` modelled
exactly, the loop by the comment's series
`tau := 1/3 (1 - x - sum[k=1..Inf] (1 - x^(2^(-k)))^2 * 2^(-k))`. -/
noncomputable def tau (x : ENNReal) : ENNReal :=
  if x = 0 ∨ x = 1 then 0
  else (1 - x -
    tsum (fun k : ℕ => (1 - x ^ ((2 : ℝ) ^ (-(k : ℝ) - 1))) ^ 2 *
      (2 : ENNReal) ^ (-(k : ℝ) - 1))) / 3

/-- The halving loop of `ertlCardinality` (source lines 667-670):
`for (k = q; k >= 1; --k) { est += C[k]; est *= 0.5; }`. -/
noncomputable def ertlLoop (C : Nat → Nat) : Nat → ENNReal → ENNReal
  | 0, est => est
  | k + 1, est => ertlLoop C k ((est + C (k + 1)) * 2⁻¹)

/-- `ertlCardinality()` (source lines 649-678) up to the final `std::round`
and `uint64_t` conversion: the double `m_sq_alpha_inf / est_denominator` in
`ℝ≥0∞` arithmetic. -/
noncomputable def ertlEstimate (st : HLL) : ENNReal :=
  let q : Nat := if st.sparse then 64 - pPrime else 64 - st.p
  let m : Nat := if st.sparse then mPrime else st.m
  let C : Nat → Nat :=
    if st.sparse then sparseRegisterHistogram st.p st.sparseList mPrime
    else registerHistogram st.M st.m
  let estDen1 : ENNReal := m * tau (1 - (C (q + 1) : ENNReal) / (m : ENNReal))
  let estDen2 : ENNReal := ertlLoop C q estDen1
  let estDen : ENNReal := estDen2 + m * sigma ((C 0 : ENNReal) / (m : ENNReal))
  ENNReal.ofReal ((m : ℝ) / (2 * Real.log 2) * m) / estDen

/-- The value `ertlCardinality()` returns: `std::round` of the estimate cast
to `uint64_t`.  Converting a non-finite double to `uint64_t` is undefined
behaviour in C++, modelled as `none`. -/
noncomputable def ertlCardinality (st : HLL) : Option Nat :=
  if ertlEstimate st = ⊤ then none
  else some (round (ertlEstimate st).toReal).toNat

/-- Simulation invariant between a stream processed sparse-first and the same
stream processed dense-from-the-start: the sparse list, once folded into
fresh registers, equals the dense register array. -/
def PromoInv (p : Nat) (stS stD : HLL) : Prop :=
  stS.p = p ∧ stD.p = p ∧ stD.sparse = false ∧
    (stS.sparse = true → addToRegisters p (fun _ => 0) stS.sparseList = stD.M) ∧
    (stS.sparse = false → stS.M = stD.M)

/-- A concrete sparse state with 9000 stored words. -/
def st9000 : HLL := ⟨12, true, Finset.range 9000, fun _ => 0⟩

/-- A dense state with every register saturated (`p = 4`, `M[i] = q + 1 = 61`). -/
def satHLL : HLL := ⟨4, false, ∅, fun _ => 61⟩

/-- A dense state with every register zero (`p = 4`). -/
def zeroHLL : HLL := ⟨4, false, ∅, fun _ => 0⟩

/-! ## Theorems -/

theorem bitlenF_zero (fuel : Nat) : bitlenF fuel 0 = 0 := by
  cases fuel <;> simp [bitlenF]

theorem bitlenF_spec (fuel : Nat) :
    ∀ n, n < 2 ^ fuel → n < 2 ^ bitlenF fuel n ∧
      (0 < n → 2 ^ (bitlenF fuel n - 1) ≤ n ∧ 0 < bitlenF fuel n) := by
  induction fuel with
  | zero =>
    intro n hn
    interval_cases n
    simp [bitlenF]
  | succ f ih =>
    intro n hn
    by_cases h0 : n = 0
    · subst h0; simp [bitlenF]
    · have hdiv : n / 2 < 2 ^ f := by
        have : n < 2 ^ f * 2 := by
          have := hn; rw [pow_succ] at this; omega
        omega
      have hspec := ih (n / 2) hdiv
      rw [show bitlenF (f + 1) n = bitlenF f (n / 2) + 1 by simp [bitlenF, h0]]
      constructor
      · have h1 : n / 2 < 2 ^ bitlenF f (n / 2) := hspec.1
        have : n < 2 ^ bitlenF f (n / 2) * 2 := by omega
        calc n < 2 ^ bitlenF f (n / 2) * 2 := this
          _ = 2 ^ (bitlenF f (n / 2) + 1) := by rw [pow_succ]
      · intro _
        refine ⟨?_, by omega⟩
        by_cases h2 : n / 2 = 0
        · have : n = 1 := by omega
          simp [h2, bitlenF_zero, this]
        · have h3 := (hspec.2 (by omega)).1
          have h4 := (hspec.2 (by omega)).2
          have : 2 ^ (bitlenF f (n / 2) - 1) * 2 ≤ n := by omega
          calc 2 ^ (bitlenF f (n / 2) + 1 - 1) = 2 ^ (bitlenF f (n / 2) - 1) * 2 := by
                rw [← pow_succ]; congr 1; omega
            _ ≤ n := this

/-- The bit length is uniquely determined by a dyadic enclosure. -/
theorem bitlenF_eq_of (fuel n t : Nat) (hf : n < 2 ^ fuel)
    (h1 : 2 ^ (t - 1) ≤ n) (h2 : n < 2 ^ t) (ht : 0 < t) : bitlenF fuel n = t := by
  have h0 : 0 < n := lt_of_lt_of_le (by positivity) h1
  obtain ⟨hlt, hge⟩ := bitlenF_spec fuel n hf
  obtain ⟨hlow, hpos⟩ := hge h0
  set b := bitlenF fuel n with hb
  by_contra hne
  rcases Nat.lt_or_ge b t with h | h
  · -- b < t: then n < 2^b ≤ 2^(t-1) ≤ n, contradiction
    have : (2 : Nat) ^ b ≤ 2 ^ (t - 1) := Nat.pow_le_pow_right (by norm_num) (by omega)
    omega
  · have : t < b := by omega
    have : (2 : Nat) ^ t ≤ 2 ^ (b - 1) := Nat.pow_le_pow_right (by norm_num) (by omega)
    omega

/-- Bit length of `c * 2 ^ k + r` for `0 < c` and `r < 2 ^ k`. -/
theorem bitlenF_mul_pow_add (fuel c k r : Nat) (hc : 0 < c) (hr : r < 2 ^ k)
    (hf : c * 2 ^ k + r < 2 ^ fuel) :
    bitlenF fuel (c * 2 ^ k + r) = bitlenF fuel c + k := by
  have hcf : c < 2 ^ fuel := by
    have h1 : (1 : Nat) ≤ 2 ^ k := Nat.one_le_two_pow
    nlinarith
  obtain ⟨hlt, hge⟩ := bitlenF_spec fuel c hcf
  obtain ⟨hlow, hpos⟩ := hge hc
  apply bitlenF_eq_of fuel _ _ hf
  · have e1 : (2 : Nat) ^ (bitlenF fuel c + k - 1) = 2 ^ (bitlenF fuel c - 1) * 2 ^ k := by
      rw [← pow_add]; congr 1; omega
    have e2 : (2 : Nat) ^ (bitlenF fuel c - 1) * 2 ^ k ≤ c * 2 ^ k :=
      Nat.mul_le_mul_right _ hlow
    omega
  · have e1 : (c + 1) * 2 ^ k ≤ 2 ^ bitlenF fuel c * 2 ^ k :=
      Nat.mul_le_mul_right _ (by omega)
    have e2 : (2 : Nat) ^ bitlenF fuel c * 2 ^ k = 2 ^ (bitlenF fuel c + k) := by
      rw [pow_add]
    nlinarith
  · omega

theorem bitlenF_le (fuel n : Nat) (h : n < 2 ^ fuel) : bitlenF fuel n ≤ fuel := by
  by_cases h0 : n = 0
  · subst h0; simp [bitlenF_zero]
  · obtain ⟨hlt, hge⟩ := bitlenF_spec fuel n h
    obtain ⟨hlow, hpos⟩ := hge (by omega)
    by_contra hgt
    have : (2 : Nat) ^ fuel ≤ 2 ^ (bitlenF fuel n - 1) :=
      Nat.pow_le_pow_right (by norm_num) (by omega)
    omega

/-- Bit length of `2 ^ k - 1` is `k`. -/
theorem bitlenF_two_pow_sub_one (fuel k : Nat) (hk : 0 < k) (hf : 2 ^ k - 1 < 2 ^ fuel) :
    bitlenF fuel (2 ^ k - 1) = k := by
  have hone : (1 : Nat) ≤ 2 ^ k := Nat.one_le_two_pow
  apply bitlenF_eq_of fuel _ _ hf _ (by omega) hk
  have h1 : (2 : Nat) ^ (k - 1) * 2 = 2 ^ k := by
    rw [← pow_succ]; congr 1; omega
  have h2 : (1 : Nat) ≤ 2 ^ (k - 1) := Nat.one_le_two_pow
  omega

theorem bitlenF_le_of_lt (fuel n t : Nat) (hf : n < 2 ^ fuel) (ht : n < 2 ^ t) :
    bitlenF fuel n ≤ t := by
  by_cases h0 : n = 0
  · subst h0; simp [bitlenF_zero]
  · obtain ⟨hlt, hge⟩ := bitlenF_spec fuel n hf
    obtain ⟨hlow, hpos⟩ := hge (by omega)
    by_contra hgt
    have : (2 : Nat) ^ t ≤ 2 ^ (bitlenF fuel n - 1) :=
      Nat.pow_le_pow_right (by norm_num) (by omega)
    omega

/-- The fuel does not matter as long as it is sufficient. -/
theorem bitlenF_fuel_irrel (f g n : Nat) (hf : n < 2 ^ f) (hg : n < 2 ^ g) :
    bitlenF f n = bitlenF g n := by
  by_cases h0 : n = 0
  · subst h0; simp [bitlenF_zero]
  · obtain ⟨hlt, hge⟩ := bitlenF_spec f n hf
    obtain ⟨hlow, hpos⟩ := hge (by omega)
    exact (bitlenF_eq_of g n (bitlenF f n) hg hlow hlt hpos).symm

/-- Bitwise `or` of disjoint fields is addition (low part). -/
theorem or_low (a t r : Nat) (hr : r < 2 ^ t) : (a * 2 ^ t) ||| r = a * 2 ^ t + r := by
  rw [mul_comm a (2 ^ t)]
  exact (Nat.mul_add_lt_is_or hr a).symm

theorem add_low_div (i t r : Nat) (hr : r < 2 ^ t) : (i * 2 ^ t + r) / 2 ^ t = i := by
  rw [Nat.add_comm, mul_comm, Nat.add_mul_div_left _ _ (Nat.pos_pow_of_pos t (by norm_num)),
    Nat.div_eq_of_lt hr, Nat.zero_add]

theorem add_low_mod (i t r : Nat) (hr : r < 2 ^ t) : (i * 2 ^ t + r) % 2 ^ t = r := by
  rw [Nat.add_comm, mul_comm, Nat.add_mul_mod_self_left, Nat.mod_eq_of_lt hr]

/-- Splitting a power of two at position `s`. -/
theorem pow_split (s t : Nat) (h : s ≤ t) : (2 : Nat) ^ t = 2 ^ s * 2 ^ (t - s) := by
  rw [← pow_add]
  congr 1
  omega

/-- `(h * 2^s) % 2^t = (h % 2^(t-s)) * 2^s` for `s ≤ t`: a left shift in a
`t`-bit word keeps the low `t - s` bits of the operand. -/
theorem mul_pow_mod_pow (h s t : Nat) (hst : s ≤ t) :
    (h * 2 ^ s) % 2 ^ t = (h % 2 ^ (t - s)) * 2 ^ s := by
  have hts : t - s + s = t := by omega
  have e : h * 2 ^ s = (h % 2 ^ (t - s)) * 2 ^ s + (h / 2 ^ (t - s)) * 2 ^ t := by
    calc h * 2 ^ s = (2 ^ (t - s) * (h / 2 ^ (t - s)) + h % 2 ^ (t - s)) * 2 ^ s := by
          rw [Nat.div_add_mod]
      _ = (h % 2 ^ (t - s)) * 2 ^ s + (h / 2 ^ (t - s)) * (2 ^ (t - s) * 2 ^ s) := by ring
      _ = (h % 2 ^ (t - s)) * 2 ^ s + (h / 2 ^ (t - s)) * 2 ^ t := by
          rw [← pow_add, hts]
  rw [e, Nat.add_mul_mod_self_right, Nat.mod_eq_of_lt]
  have h1 : h % 2 ^ (t - s) < 2 ^ (t - s) := Nat.mod_lt _ (Nat.pos_pow_of_pos _ (by norm_num))
  have h2 : (h % 2 ^ (t - s)) * 2 ^ s < 2 ^ (t - s) * 2 ^ s := by
    have := Nat.pos_pow_of_pos s (show 0 < 2 by norm_num)
    exact Nat.mul_lt_mul_of_lt_of_le h1 (le_refl _) this
  calc (h % 2 ^ (t - s)) * 2 ^ s < 2 ^ (t - s) * 2 ^ s := h2
    _ = 2 ^ t := by rw [← pow_add, hts]

/-- The additional rank stored by `encodeHashIn32Bit` is between 1 and 40. -/
theorem get_rank64_pPrime_le (h : Nat) :
    1 ≤ get_rank64 h pPrime ∧ get_rank64 h pPrime ≤ 40 := by
  unfold get_rank64 clz64 get_trailing_ones pPrime
  rw [Nat.shiftLeft_eq, Nat.shiftLeft_eq, one_mul,
    mul_pow_mod_pow h 25 64 (by norm_num),
    (by norm_num : (64 : Nat) - 25 = 39),
    or_low _ 25 _ (by norm_num)]
  have hblt : h % 2 ^ 39 < 2 ^ 39 := Nat.mod_lt _ (by norm_num)
  have hbl : 25 ≤ bitlenF 64 (h % 2 ^ 39 * 2 ^ 25 + (2 ^ 25 - 1)) ∧
      bitlenF 64 (h % 2 ^ 39 * 2 ^ 25 + (2 ^ 25 - 1)) ≤ 64 := by
    by_cases h0 : h % 2 ^ 39 = 0
    · rw [h0, Nat.zero_mul, Nat.zero_add,
        bitlenF_two_pow_sub_one 64 25 (by norm_num) (by norm_num)]
      norm_num
    · rw [bitlenF_mul_pow_add 64 _ 25 _ (by omega) (by norm_num) (by omega)]
      have h39 : bitlenF 64 (h % 2 ^ 39) ≤ 39 := bitlenF_le_of_lt 64 _ 39 (by omega) hblt
      omega
  omega

/-- Round-trip of the 32-bit sparse encoding, the central lemma: decoding
recovers the dense index (top `p` bits of the hash) and the dense rank. -/
theorem encode_decode_aux (p h : Nat) (hh : h < 2 ^ 64) (hp4 : 4 ≤ p) (hp18 : p ≤ 18) :
    getIndexAndRankFromEncodedHash p (encodeHashIn32Bit p h) =
      (get_index64 h p, get_rank64 h p) := by
  have hp1 : (1 : Nat) ≤ 2 ^ p := Nat.one_le_two_pow
  set a := h / 2 ^ 39 with ha
  set b := h % 2 ^ 39 with hb
  have halt : a < 2 ^ 25 := by
    rw [ha, Nat.div_lt_iff_lt_mul (by norm_num : (0 : Nat) < 2 ^ 39)]
    omega
  have hblt : b < 2 ^ 39 := Nat.mod_lt _ (by norm_num)
  have hab : h = a * 2 ^ 39 + b := by rw [ha, hb]; omega
  set i := a / 2 ^ (25 - p) with hi
  set j := a % 2 ^ (25 - p) with hj
  have hpow25 : (2 : Nat) ^ 25 = 2 ^ p * 2 ^ (25 - p) := by
    rw [← pow_add]; congr 1; omega
  have hjlt : j < 2 ^ (25 - p) := Nat.mod_lt _ (Nat.pos_pow_of_pos _ (by norm_num))
  have haij : a = i * 2 ^ (25 - p) + j := (Nat.div_add_mod' a (2 ^ (25 - p))).symm
  have hilt : i < 2 ^ p := by
    rw [hi, Nat.div_lt_iff_lt_mul (Nat.pos_pow_of_pos _ (by norm_num)), ← hpow25]
    exact halt
  -- split of h at bit 64 - p
  have hlow64 : j * 2 ^ 39 + b < 2 ^ (64 - p) := by
    have e1 : (2 : Nat) ^ (64 - p) = 2 ^ (25 - p) * 2 ^ 39 := by
      rw [← pow_add]; congr 1; omega
    have h2 : (j + 1) * 2 ^ 39 ≤ 2 ^ (25 - p) * 2 ^ 39 := Nat.mul_le_mul_right _ hjlt
    have h3 : (j + 1) * 2 ^ 39 = j * 2 ^ 39 + 2 ^ 39 := by ring
    omega
  have he64 : h = i * 2 ^ (64 - p) + (j * 2 ^ 39 + b) := by
    rw [hab, haij, Nat.add_mul, mul_assoc, ← pow_add,
      (show 25 - p + 39 = 64 - p by omega)]
    ring
  have hidx64 : get_index64 h p = i := by
    unfold get_index64
    rw [Nat.shiftRight_eq_div_pow, he64, add_low_div _ _ _ hlow64]
  have hmodp : h % 2 ^ (64 - p) = j * 2 ^ 39 + b := by
    rw [he64, add_low_mod _ _ _ hlow64]
  have hrank64 : get_rank64 h p =
      64 - bitlenF 64 ((j * 2 ^ 39 + b) * 2 ^ p + (2 ^ p - 1)) + 1 := by
    unfold get_rank64 clz64 get_trailing_ones
    rw [Nat.shiftLeft_eq, Nat.shiftLeft_eq, one_mul,
      mul_pow_mod_pow h p 64 (by omega), hmodp, or_low _ p _ (by omega)]
  -- the encoder's index word is a * 2^7
  have hidx : ((extractHighBits64 h pPrime) <<< (32 - pPrime)) % 2 ^ 32 = a * 2 ^ 7 := by
    unfold extractHighBits64 pPrime
    rw [Nat.shiftRight_eq_div_pow, Nat.shiftLeft_eq,
      (by norm_num : (64 : Nat) - 25 = 39), (by norm_num : (32 : Nat) - 25 = 7), ← ha]
    exact Nat.mod_eq_of_lt (by omega)
  have hflag : ((a * 2 ^ 7) <<< p) % 2 ^ 32 = j * 2 ^ (7 + p) := by
    rw [Nat.shiftLeft_eq, mul_assoc, ← pow_add, mul_pow_mod_pow a (7 + p) 32 (by omega),
      (show 32 - (7 + p) = 25 - p by omega), ← hj]
  by_cases hflag0 : j = 0
  · -- flagged case: low bit set, 6-bit additional rank in bits 1..6
    set R := get_rank64 h pPrime with hR
    obtain ⟨hR1, hR40⟩ := get_rank64_pPrime_le h
    rw [← hR] at hR1 hR40
    have hai : a * 2 ^ 7 = i * 2 ^ (32 - p) := by
      rw [haij, hflag0, Nat.add_zero, mul_assoc, ← pow_add,
        (show 25 - p + 7 = 32 - p by omega)]
    have hRlow : R * 2 + 1 < 2 ^ (32 - p) := by
      have h14 : (2 : Nat) ^ 14 ≤ 2 ^ (32 - p) := Nat.pow_le_pow_right (by norm_num) (by omega)
      omega
    have e31 : (2 : Nat) ^ (32 - p) = 2 ^ (31 - p) * 2 := by
      rw [← pow_succ]; congr 1; omega
    have henc : encodeHashIn32Bit p h = i * 2 ^ (32 - p) + (R * 2 + 1) := by
      simp only [encodeHashIn32Bit, hidx, hflag, hflag0, Nat.zero_mul, if_true]
      rw [hai, Nat.shiftLeft_eq, pow_one,
        or_low i (32 - p) (R * 2) (by omega)]
      have e3 : i * 2 ^ (32 - p) + R * 2 = (i * 2 ^ (31 - p) + R) * 2 ^ 1 := by
        rw [e31]; ring
      rw [e3, or_low _ 1 1 (by norm_num)]
      rw [e31]; ring
    have hodd : encodeHashIn32Bit p h % 2 = 1 := by
      rw [henc, e31,
        (show i * (2 ^ (31 - p) * 2) + (R * 2 + 1) = (i * 2 ^ (31 - p) + R) * 2 + 1 by ring)]
      omega
    have hdi : get_index32 (encodeHashIn32Bit p h) p = i := by
      unfold get_index32
      rw [Nat.shiftRight_eq_div_pow, henc, add_low_div _ _ _ hRlow]
    have hext : extractBits32 (encodeHashIn32Bit p h) 7 1 = R := by
      unfold extractBits32
      rw [(by decide : ((1 <<< (7 - 1)) - 1) <<< 1 = 126), henc,
        Nat.shiftRight_eq_div_pow, pow_one,
        (by decide : (126 : Nat) = 127 &&& 126), ← Nat.and_assoc,
        (by norm_num : (127 : Nat) = 2 ^ 7 - 1), Nat.and_pow_two_sub_one_eq_mod]
      have hm : (i * 2 ^ (32 - p) + (R * 2 + 1)) % 2 ^ 7 = R * 2 + 1 := by
        have e : i * 2 ^ (32 - p) + (R * 2 + 1) =
            i * 2 ^ (32 - p - 7) * 2 ^ 7 + (R * 2 + 1) := by
          rw [mul_assoc, ← pow_add, (show 32 - p - 7 + 7 = 32 - p by omega)]
        rw [e, add_low_mod _ _ _ (by omega)]
      rw [hm, Nat.and_div_two, (show (R * 2 + 1) / 2 = R by omega),
        (by norm_num : (126 : Nat) / 2 = 63),
        (by norm_num : (63 : Nat) = 2 ^ 6 - 1), Nat.and_pow_two_sub_one_eq_mod,
        Nat.mod_eq_of_lt (by omega)]
    have hdec : getIndexAndRankFromEncodedHash p (encodeHashIn32Bit p h) =
        (i, (pPrime - p) + R) := by
      simp [getIndexAndRankFromEncodedHash, hodd, hdi, hext]
    rw [hdec, hidx64, hrank64, hflag0, Nat.zero_mul, Nat.zero_add]
    have hBdef : R = 64 - bitlenF 64 (b * 2 ^ 25 + (2 ^ 25 - 1)) + 1 := by
      rw [hR]
      unfold get_rank64 clz64 get_trailing_ones pPrime
      rw [Nat.shiftLeft_eq, Nat.shiftLeft_eq, one_mul,
        mul_pow_mod_pow h 25 64 (by norm_num),
        (by norm_num : (64 : Nat) - 25 = 39), ← hb,
        or_low _ 25 _ (by norm_num)]
    rw [Prod.mk.injEq]
    refine ⟨rfl, ?_⟩
    rw [(show pPrime = 25 from rfl)]
    by_cases hb0 : b = 0
    · rw [hb0, Nat.zero_mul, Nat.zero_add] at hBdef ⊢
      rw [bitlenF_two_pow_sub_one 64 25 (by norm_num) (by norm_num)] at hBdef
      have hple : (2 : Nat) ^ p ≤ 2 ^ 18 := Nat.pow_le_pow_right (by norm_num) hp18
      rw [bitlenF_two_pow_sub_one 64 p (by omega) (by omega)]
      omega
    · have hs1 : b * 2 ^ 25 + (2 ^ 25 - 1) < 2 ^ 64 := by omega
      have hple : (2 : Nat) ^ p ≤ 2 ^ 25 := Nat.pow_le_pow_right (by norm_num) (by omega)
      have hs2 : b * 2 ^ p + (2 ^ p - 1) < 2 ^ 64 := by
        have h2 : b * 2 ^ p ≤ b * 2 ^ 25 := Nat.mul_le_mul_left _ hple
        omega
      rw [bitlenF_mul_pow_add 64 b 25 _ (by omega) (by norm_num) hs1] at hBdef
      rw [bitlenF_mul_pow_add 64 b p _ (by omega) (by omega) hs2]
      have hbl39 : bitlenF 64 b ≤ 39 := bitlenF_le_of_lt 64 b 39 (by omega) hblt
      have hblpos : 0 < bitlenF 64 b := by
        obtain ⟨_, hge⟩ := bitlenF_spec 64 b (by omega)
        exact (hge (by omega)).2
      omega
  · -- unflagged case: the word is the shifted 25-bit index, low bit clear
    have hjpos : 0 < j := by omega
    have henc : encodeHashIn32Bit p h = a * 2 ^ 7 := by
      simp only [encodeHashIn32Bit, hidx, hflag]
      rw [if_neg]
      intro hc
      rcases Nat.mul_eq_zero.mp hc with hzero | hzero
      · exact hflag0 hzero
      · have : (0 : Nat) < 2 ^ (7 + p) := Nat.pos_pow_of_pos _ (by norm_num)
        omega
    have heven : encodeHashIn32Bit p h % 2 = 0 := by
      rw [henc]
      omega
    have hji : a * 2 ^ 7 = i * 2 ^ (32 - p) + j * 2 ^ 7 := by
      rw [haij, Nat.add_mul, mul_assoc, ← pow_add,
        (show 25 - p + 7 = 32 - p by omega)]
    have hj7 : j * 2 ^ 7 < 2 ^ (32 - p) := by
      have e1 : (2 : Nat) ^ (32 - p) = 2 ^ (25 - p) * 2 ^ 7 := by
        rw [← pow_add]; congr 1; omega
      have h1 : (j + 1) * 2 ^ 7 ≤ 2 ^ (25 - p) * 2 ^ 7 := Nat.mul_le_mul_right _ hjlt
      have h4 : (j + 1) * 2 ^ 7 = j * 2 ^ 7 + 2 ^ 7 := by ring
      omega
    have hdi : get_index32 (encodeHashIn32Bit p h) p = i := by
      unfold get_index32
      rw [Nat.shiftRight_eq_div_pow, henc, hji, add_low_div _ _ _ hj7]
    have h7p : (2 : Nat) ^ p ≤ 2 ^ (7 + p) := Nat.pow_le_pow_right (by norm_num) (by omega)
    have hd32 : get_rank32 (encodeHashIn32Bit p h) p =
        32 - bitlenF 32 (j * 2 ^ (7 + p) + (2 ^ p - 1)) + 1 := by
      unfold get_rank32 clz32 get_trailing_ones
      rw [Nat.shiftLeft_eq, Nat.shiftLeft_eq, one_mul, henc, mul_assoc, ← pow_add,
        mul_pow_mod_pow a (7 + p) 32 (by omega),
        (show 32 - (7 + p) = 25 - p by omega), ← hj,
        or_low _ _ _ (by omega)]
    have hdec : getIndexAndRankFromEncodedHash p (encodeHashIn32Bit p h) =
        (i, get_rank32 (encodeHashIn32Bit p h) p) := by
      simp [getIndexAndRankFromEncodedHash, heven, hdi]
    rw [hdec, hd32, hidx64, hrank64, Prod.mk.injEq]
    refine ⟨rfl, ?_⟩
    have hs32 : j * 2 ^ (7 + p) + (2 ^ p - 1) < 2 ^ 32 := by
      have e1 : (2 : Nat) ^ (25 - p) * 2 ^ (7 + p) = 2 ^ 32 := by
        rw [← pow_add]; congr 1; omega
      have h1 : (j + 1) * 2 ^ (7 + p) ≤ 2 ^ (25 - p) * 2 ^ (7 + p) := Nat.mul_le_mul_right _ hjlt
      have h4 : (j + 1) * 2 ^ (7 + p) = j * 2 ^ (7 + p) + 2 ^ (7 + p) := by ring
      omega
    have hsplit : (j * 2 ^ 39 + b) * 2 ^ p + (2 ^ p - 1) =
        j * 2 ^ (39 + p) + (b * 2 ^ p + (2 ^ p - 1)) := by
      rw [Nat.add_mul, mul_assoc, ← pow_add]
      omega
    have hlow39 : b * 2 ^ p + (2 ^ p - 1) < 2 ^ (39 + p) := by
      have e1 : (2 : Nat) ^ (39 + p) = 2 ^ 39 * 2 ^ p := by rw [← pow_add]
      have h1 : (b + 1) * 2 ^ p ≤ 2 ^ 39 * 2 ^ p := Nat.mul_le_mul_right _ hblt
      have h4 : (b + 1) * 2 ^ p = b * 2 ^ p + 2 ^ p := by ring
      omega
    have hs64 : j * 2 ^ (39 + p) + (b * 2 ^ p + (2 ^ p - 1)) < 2 ^ 64 := by
      have e1 : (2 : Nat) ^ (25 - p) * 2 ^ (39 + p) = 2 ^ 64 := by
        rw [← pow_add]; congr 1; omega
      have h1 : (j + 1) * 2 ^ (39 + p) ≤ 2 ^ (25 - p) * 2 ^ (39 + p) :=
        Nat.mul_le_mul_right _ hjlt
      have h4 : (j + 1) * 2 ^ (39 + p) = j * 2 ^ (39 + p) + 2 ^ (39 + p) := by ring
      omega
    rw [hsplit, bitlenF_mul_pow_add 64 j (39 + p) _ hjpos hlow39 hs64,
      bitlenF_mul_pow_add 32 j (7 + p) _ hjpos (by omega) hs32]
    have hj21 : j < 2 ^ 21 :=
      lt_of_lt_of_le hjlt (Nat.pow_le_pow_right (by norm_num) (by omega))
    have hfj : bitlenF 64 j = bitlenF 32 j := bitlenF_fuel_irrel 64 32 j (by omega) (by omega)
    have hjb : bitlenF 32 j ≤ 25 - p := bitlenF_le_of_lt 32 j (25 - p) (by omega) hjlt
    have hjpos2 : 0 < bitlenF 32 j := by
      obtain ⟨_, hge⟩ := bitlenF_spec 32 j (by omega)
      exact (hge hjpos).2
    rw [hfj]
    omega

theorem murmurhash3_finalizer_lt (key : Nat) : murmurhash3_finalizer key < 2 ^ 64 := by
  have gen : ∀ x : Nat, x % 2 ^ 64 ^^^ (x % 2 ^ 64) >>> 33 < 2 ^ 64 := by
    intro x
    apply Nat.xor_lt_two_pow (Nat.mod_lt _ (by norm_num))
    rw [Nat.shiftRight_eq_div_pow]
    exact lt_of_le_of_lt (Nat.div_le_self _ _) (Nat.mod_lt _ (by norm_num))
  exact gen _

/-- Two register max-updates commute. -/
theorem registerUpdate_comm (M : Nat → Nat) (i1 r1 i2 r2 : Nat) :
    registerUpdate (registerUpdate M i1 r1) i2 r2 =
      registerUpdate (registerUpdate M i2 r2) i1 r1 := by
  funext x
  simp only [registerUpdate]
  by_cases hx1 : x = i1 <;> by_cases hx2 : x = i2
  · subst hx1
    subst hx2
    simp only [if_pos rfl]
    split_ifs <;> omega
  · subst hx1
    simp [hx2]
  · subst hx2
    simp [hx1]
  · simp [hx1, hx2]

/-- Folding an inserted word into the registers is a register max-update. -/
theorem addToRegisters_insert (p : Nat) (M : Nat → Nat) (s : Finset Nat) (e : Nat) :
    addToRegisters p M (insert e s) =
      registerUpdate (addToRegisters p M s)
        (getIndexAndRankFromEncodedHash p e).1 (getIndexAndRankFromEncodedHash p e).2 := by
  funext x
  simp only [addToRegisters, registerUpdate, Finset.sup_insert]
  by_cases hx : (getIndexAndRankFromEncodedHash p e).1 = x
  · subst hx
    simp only [eq_self_iff_true, if_true, sup_eq_max]
    split_ifs <;> omega
  · rw [if_neg hx, if_neg (fun hc => hx hc.symm)]
    rw [sup_eq_max]
    omega

theorem addToRegisters_empty (p : Nat) (M : Nat → Nat) :
    addToRegisters p M ∅ = M := by
  funext x
  simp [addToRegisters]

/-- Unfolding `add` on an explicit dense state. -/
theorem add_mk_dense (P : Nat) (S : Finset Nat) (Mv : Nat → Nat) (k : Nat) :
    HLL.add ⟨P, false, S, Mv⟩ k =
      ⟨P, false, S, registerUpdate Mv (get_index64 (murmurhash3_finalizer k) P)
        (get_rank64 (murmurhash3_finalizer k) P)⟩ := by
  simp [HLL.add]

/-- Unfolding `add` on an explicit sparse state. -/
theorem add_mk_sparse (P : Nat) (S : Finset Nat) (Mv : Nat → Nat) (k : Nat) :
    HLL.add ⟨P, true, S, Mv⟩ k =
      (if (insert (encodeHashIn32Bit P (murmurhash3_finalizer k)) S).card > (1 <<< P) / 4 then
        (⟨P, false, ∅, addToRegisters P (fun _ => 0)
          (insert (encodeHashIn32Bit P (murmurhash3_finalizer k)) S)⟩ : HLL)
      else
        ⟨P, true, insert (encodeHashIn32Bit P (murmurhash3_finalizer k)) S, Mv⟩) := by
  simp only [HLL.add, insert_hash, switchToNormalRepresentation, HLL.m]
  rfl

theorem add_eq_sparse (st : HLL) (hs : st.sparse = true) (k : Nat) :
    st.add k =
      (if (insert (encodeHashIn32Bit st.p (murmurhash3_finalizer k)) st.sparseList).card >
          (1 <<< st.p) / 4 then
        (⟨st.p, false, ∅, addToRegisters st.p (fun _ => 0)
          (insert (encodeHashIn32Bit st.p (murmurhash3_finalizer k)) st.sparseList)⟩ : HLL)
      else
        ⟨st.p, true, insert (encodeHashIn32Bit st.p (murmurhash3_finalizer k)) st.sparseList,
          st.M⟩) := by
  obtain ⟨P, sp, L, Mv⟩ := st
  cases sp
  · simp at hs
  · exact add_mk_sparse P L Mv k

theorem add_eq_dense (st : HLL) (hs : st.sparse = false) (k : Nat) :
    st.add k =
      ⟨st.p, false, st.sparseList, registerUpdate st.M
        (get_index64 (murmurhash3_finalizer k) st.p)
        (get_rank64 (murmurhash3_finalizer k) st.p)⟩ := by
  obtain ⟨P, sp, L, Mv⟩ := st
  cases sp
  · exact add_mk_dense P L Mv k
  · simp at hs

/-- `add` calls commute, including across a promotion triggered in between. -/
theorem add_comm_aux (st : HLL) (k1 k2 : Nat) (h4 : 4 ≤ st.p) (h18 : st.p ≤ 18) :
    (st.add k1).add k2 = (st.add k2).add k1 := by
  obtain ⟨P, sp, L, Mv⟩ := st
  have h4P : 4 ≤ P := h4
  have h18P : P ≤ 18 := h18
  set hh1 := murmurhash3_finalizer k1 with hdef1
  set hh2 := murmurhash3_finalizer k2 with hdef2
  set e1 := encodeHashIn32Bit P hh1 with he1
  set e2 := encodeHashIn32Bit P hh2 with he2
  have rt1 : getIndexAndRankFromEncodedHash P e1 = (get_index64 hh1 P, get_rank64 hh1 P) :=
    encode_decode_aux P hh1 (murmurhash3_finalizer_lt k1) h4P h18P
  have rt2 : getIndexAndRankFromEncodedHash P e2 = (get_index64 hh2 P, get_rank64 hh2 P) :=
    encode_decode_aux P hh2 (murmurhash3_finalizer_lt k2) h4P h18P
  cases sp
  · -- dense: two register max-updates commute
    rw [add_mk_dense, add_mk_dense, add_mk_dense, add_mk_dense, registerUpdate_comm]
  · -- sparse
    rw [add_mk_sparse, add_mk_sparse]
    have hcomm : insert e2 (insert e1 L) = insert e1 (insert e2 L) :=
      Finset.Insert.comm e2 e1 L
    have s1 : registerUpdate (addToRegisters P (fun _ => 0) (insert e1 L))
        (get_index64 hh2 P) (get_rank64 hh2 P) =
        addToRegisters P (fun _ => 0) (insert e2 (insert e1 L)) := by
      rw [addToRegisters_insert P (fun _ => 0) (insert e1 L) e2, rt2]
    have s2 : registerUpdate (addToRegisters P (fun _ => 0) (insert e2 L))
        (get_index64 hh1 P) (get_rank64 hh1 P) =
        addToRegisters P (fun _ => 0) (insert e1 (insert e2 L)) := by
      rw [addToRegisters_insert P (fun _ => 0) (insert e2 L) e1, rt1]
    by_cases hc1 : (insert e1 L).card > (1 <<< P) / 4 <;>
      by_cases hc2 : (insert e2 L).card > (1 <<< P) / 4
    · -- both single inserts already over the threshold
      rw [if_pos hc1, if_pos hc2, add_mk_dense, add_mk_dense, s1, s2, hcomm]
    · -- the k1-insert switches, the k2-insert alone does not
      have h12 : (insert e2 (insert e1 L)).card > (1 <<< P) / 4 :=
        lt_of_lt_of_le hc1 (Finset.card_le_card (Finset.subset_insert e2 _))
      have h21 : (insert e1 (insert e2 L)).card > (1 <<< P) / 4 := by
        rw [← hcomm]; exact h12
      rw [if_pos hc1, if_neg hc2, add_mk_dense, add_mk_sparse, if_pos h21, s1, hcomm]
    · -- symmetric to the previous case
      have h21 : (insert e1 (insert e2 L)).card > (1 <<< P) / 4 :=
        lt_of_lt_of_le hc2 (Finset.card_le_card (Finset.subset_insert e1 _))
      have h12 : (insert e2 (insert e1 L)).card > (1 <<< P) / 4 := by
        rw [hcomm]; exact h21
      rw [if_neg hc1, if_pos hc2, add_mk_sparse, add_mk_dense, if_pos h12, s2, hcomm]
    · -- neither single insert switches; the double insert may or may not
      rw [if_neg hc1, if_neg hc2, add_mk_sparse, add_mk_sparse]
      by_cases h12 : (insert e2 (insert e1 L)).card > (1 <<< P) / 4
      · have h21 : (insert e1 (insert e2 L)).card > (1 <<< P) / 4 := by
          rw [← hcomm]; exact h12
        rw [if_pos h12, if_pos h21, hcomm]
      · have h21 : ¬ (insert e1 (insert e2 L)).card > (1 <<< P) / 4 := by
          rw [← hcomm]; exact h12
        rw [if_neg h12, if_neg h21, hcomm]

theorem promoInv_init (p : Nat) :
    PromoInv p (HyperLogLogPlusMinus p true) (HyperLogLogPlusMinus p false) := by
  refine ⟨rfl, rfl, rfl, ?_, ?_⟩
  · intro _
    exact addToRegisters_empty p (fun _ => 0)
  · intro h
    simp [HyperLogLogPlusMinus] at h

theorem promoInv_step (p : Nat) (h4 : 4 ≤ p) (h18 : p ≤ 18) (stS stD : HLL) (k : Nat)
    (h : PromoInv p stS stD) : PromoInv p (stS.add k) (stD.add k) := by
  obtain ⟨hSp, hDp, hDd, hSparse, hDense⟩ := h
  have rt : getIndexAndRankFromEncodedHash p (encodeHashIn32Bit p (murmurhash3_finalizer k)) =
      (get_index64 (murmurhash3_finalizer k) p, get_rank64 (murmurhash3_finalizer k) p) :=
    encode_decode_aux p _ (murmurhash3_finalizer_lt k) h4 h18
  rw [add_eq_dense stD hDd k, hDp]
  by_cases hs : stS.sparse = true
  · rw [add_eq_sparse stS hs k, hSp]
    have hA := hSparse hs
    have hkey : addToRegisters p (fun _ => 0)
        (insert (encodeHashIn32Bit p (murmurhash3_finalizer k)) stS.sparseList) =
        registerUpdate stD.M (get_index64 (murmurhash3_finalizer k) p)
          (get_rank64 (murmurhash3_finalizer k) p) := by
      rw [addToRegisters_insert, rt, hA]
    by_cases hc : (insert (encodeHashIn32Bit p (murmurhash3_finalizer k)) stS.sparseList).card >
        (1 <<< p) / 4
    · rw [if_pos hc]
      exact ⟨rfl, rfl, rfl, fun hcon => by simp at hcon, fun _ => hkey⟩
    · rw [if_neg hc]
      exact ⟨rfl, rfl, rfl, fun _ => hkey, fun hcon => by simp at hcon⟩
  · have hs2 : stS.sparse = false := by
      cases hb : stS.sparse
      · rfl
      · exact absurd hb hs
    rw [add_eq_dense stS hs2 k, hSp]
    refine ⟨rfl, rfl, rfl, fun hcon => by simp at hcon, fun _ => ?_⟩
    rw [hDense hs2]

theorem promoInv_fold (p : Nat) (h4 : 4 ≤ p) (h18 : p ≤ 18) (ks : List Nat) :
    ∀ stS stD, PromoInv p stS stD →
      PromoInv p (ks.foldl HLL.add stS) (ks.foldl HLL.add stD) := by
  induction ks with
  | nil => intro _ _ h; exact h
  | cons k ks ih =>
    intro stS stD h
    exact ih _ _ (promoInv_step p h4 h18 stS stD k h)

theorem sigma_zero : sigma 0 = 0 := by
  rw [sigma, if_neg (by simp)]
  have h : ∀ k : ℕ, (0 : ENNReal) ^ 2 ^ (k + 1) * 2 ^ k = 0 := fun k => by
    rw [zero_pow (by positivity), zero_mul]
  rw [tsum_congr h, tsum_zero, add_zero]

theorem sigma_one : sigma 1 = ⊤ := by
  rw [sigma, if_pos rfl]

theorem tau_zero : tau 0 = 0 := by
  rw [tau, if_pos (Or.inl rfl)]

theorem tau_one : tau 1 = 0 := by
  rw [tau, if_pos (Or.inr rfl)]

theorem ertlLoop_zero (C : Nat → Nat) :
    ∀ n, (∀ k, 1 ≤ k → k ≤ n → C k = 0) → ertlLoop C n 0 = 0 := by
  intro n
  induction n with
  | zero => intro _; rfl
  | succ n ih =>
    intro h
    show ertlLoop C n (((0 : ENNReal) + (C (n + 1) : ℕ)) * 2⁻¹) = 0
    rw [h (n + 1) (by omega) (le_refl _), Nat.cast_zero, add_zero, zero_mul]
    exact ih (fun k h1 h2 => h k h1 (by omega))

theorem hll_m_ne_zero (st : HLL) : st.m ≠ 0 := by
  have : (0 : Nat) < 1 <<< st.p := by
    rw [Nat.shiftLeft_eq, one_mul]
    positivity
  simp [HLL.m]
  omega

/-- All-zero dense registers: the Ertl denominator is `+inf` and the
estimate is exactly `0`. -/
theorem ertlEstimate_dense_zero (st : HLL) (hd : st.sparse = false)
    (hM : ∀ i, i < st.m → st.M i = 0) : ertlEstimate st = 0 := by
  have hC0 : registerHistogram st.M st.m 0 = st.m := by
    unfold registerHistogram
    rw [Finset.filter_true_of_mem (fun i hi => hM i (Finset.mem_range.mp hi)),
      Finset.card_range]
  have hCk : ∀ k, k ≠ 0 → registerHistogram st.M st.m k = 0 := by
    intro k hk
    unfold registerHistogram
    rw [Finset.filter_false_of_mem, Finset.card_empty]
    intro i hi
    rw [hM i (Finset.mem_range.mp hi)]
    omega
  have hmne : ((st.m : ENNReal)) ≠ 0 := by
    simpa using hll_m_ne_zero st
  simp only [ertlEstimate, hd, Bool.false_eq_true, if_false]
  rw [hCk (64 - st.p + 1) (by omega), Nat.cast_zero, ENNReal.zero_div, tsub_zero,
    tau_one, mul_zero, ertlLoop_zero _ _ (fun k h1 h2 => hCk k (by omega)),
    hC0, ENNReal.div_self hmne (ENNReal.natCast_ne_top _), sigma_one,
    ENNReal.mul_top hmne, zero_add, ENNReal.div_top]

/-- All-saturated dense registers: the Ertl denominator is exactly `0` and
the double quotient is `+inf` (not NaN). -/
theorem ertlEstimate_dense_saturated (st : HLL) (hd : st.sparse = false)
    (hM : ∀ i, i < st.m → st.M i = 64 - st.p + 1) : ertlEstimate st = ⊤ := by
  have hCq : registerHistogram st.M st.m (64 - st.p + 1) = st.m := by
    unfold registerHistogram
    rw [Finset.filter_true_of_mem (fun i hi => hM i (Finset.mem_range.mp hi)),
      Finset.card_range]
  have hCk : ∀ k, k ≠ 64 - st.p + 1 → registerHistogram st.M st.m k = 0 := by
    intro k hk
    unfold registerHistogram
    rw [Finset.filter_false_of_mem, Finset.card_empty]
    intro i hi
    rw [hM i (Finset.mem_range.mp hi)]
    omega
  have hmne : ((st.m : ENNReal)) ≠ 0 := by
    simpa using hll_m_ne_zero st
  have hnum : ENNReal.ofReal ((st.m : ℝ) / (2 * Real.log 2) * st.m) ≠ 0 := by
    rw [Ne, ENNReal.ofReal_eq_zero, not_le]
    have hm : (0 : ℝ) < st.m := by
      have := hll_m_ne_zero st
      positivity
    have hl : (0 : ℝ) < Real.log 2 := Real.log_pos (by norm_num)
    positivity
  simp only [ertlEstimate, hd, Bool.false_eq_true, if_false]
  rw [hCq, ENNReal.div_self hmne (ENNReal.natCast_ne_top _), tsub_self, tau_zero,
    mul_zero, ertlLoop_zero _ _ (fun k h1 h2 => hCk k (by omega)),
    hCk 0 (by omega), Nat.cast_zero, ENNReal.zero_div, sigma_zero, mul_zero, add_zero,
    ENNReal.div_zero hnum]

/-- Fresh (or reset) sparse state: the Ertl denominator is `+inf` via
`sigma(1.0)` and the estimate is exactly `0`. -/
theorem ertlEstimate_sparse_empty (st : HLL) (hs : st.sparse = true)
    (hL : st.sparseList = ∅) : ertlEstimate st = 0 := by
  have hC0 : sparseRegisterHistogram st.p st.sparseList mPrime 0 = mPrime := by
    rw [hL]
    simp [sparseRegisterHistogram]
  have hCk : ∀ k, k ≠ 0 → sparseRegisterHistogram st.p st.sparseList mPrime k = 0 := by
    intro k hk
    rw [hL]
    simp [sparseRegisterHistogram, hk]
  have hmne : ((mPrime : ENNReal)) ≠ 0 := by
    simp [mPrime, pPrime]
  simp only [ertlEstimate, hs, if_true]
  rw [hCk (64 - pPrime + 1) (by simp [pPrime]), Nat.cast_zero, ENNReal.zero_div,
    tsub_zero, tau_one, mul_zero,
    ertlLoop_zero _ _ (fun k h1 h2 => hCk k (by omega)),
    hC0, ENNReal.div_self hmne (ENNReal.natCast_ne_top _), sigma_one,
    ENNReal.mul_top hmne, zero_add, ENNReal.div_top]

theorem ertlCardinality_of_estimate_zero (st : HLL) (h : ertlEstimate st = 0) :
    ertlCardinality st = some 0 := by
  rw [ertlCardinality, h, if_neg (by simp)]
  norm_num

theorem mPrime_eq : mPrime = 16777216 := by decide

theorem cardinality_sparse_branch (bias : ℝ → ℝ) (st : HLL) (hs : st.sparse = true) :
    cardinality bias st = (⌊linearCounting mPrime (mPrime - st.sparseList.card)⌋).toNat := by
  simp [cardinality, hs]

theorem cardinality_sparse_empty (bias : ℝ → ℝ) (st : HLL) (hs : st.sparse = true)
    (hL : st.sparseList = ∅) : cardinality bias st = 0 := by
  rw [cardinality_sparse_branch bias st hs, hL, Finset.card_empty, Nat.sub_zero]
  unfold linearCounting
  rw [div_self (by rw [mPrime_eq]; norm_num), Real.log_one, mul_zero]
  norm_num

/-- Two-sided linear bounds on a log difference, from
`Real.log_le_sub_one_of_pos`. -/
theorem log_sub_log_le (a b : ℝ) (hb : 0 < b) (hab : b ≤ a) :
    Real.log a - Real.log b ≤ (a - b) / b := by
  have ha : 0 < a := lt_of_lt_of_le hb hab
  have h := Real.log_le_sub_one_of_pos (show (0 : ℝ) < a / b by positivity)
  rw [Real.log_div (ne_of_gt ha) (ne_of_gt hb)] at h
  have e : a / b - 1 = (a - b) / b := by field_simp
  linarith

theorem le_log_sub_log (a b : ℝ) (hb : 0 < b) (hab : b ≤ a) :
    (a - b) / a ≤ Real.log a - Real.log b := by
  have ha : 0 < a := lt_of_lt_of_le hb hab
  have h := Real.log_le_sub_one_of_pos (show (0 : ℝ) < b / a by positivity)
  rw [Real.log_div (ne_of_gt hb) (ne_of_gt ha)] at h
  have e : b / a - 1 = -((a - b) / a) := by field_simp
  linarith

/-- Lower bound for the sparse linear count at `|S| = 9000`, `m = 2^24`:
six-step telescoping of the log difference. -/
theorem lc24_lower : (9002 : ℝ) ≤ 16777216 * Real.log ((16777216 : ℝ) / 16768216) := by
  have hsplit : Real.log ((16777216 : ℝ) / 16768216) =
      Real.log 16777216 - Real.log 16768216 := Real.log_div (by norm_num) (by norm_num)
  have d0 := le_log_sub_log 16777216 16775716 (by norm_num) (by norm_num)
  have d1 := le_log_sub_log 16775716 16774216 (by norm_num) (by norm_num)
  have d2 := le_log_sub_log 16774216 16772716 (by norm_num) (by norm_num)
  have d3 := le_log_sub_log 16772716 16771216 (by norm_num) (by norm_num)
  have d4 := le_log_sub_log 16771216 16769716 (by norm_num) (by norm_num)
  have d5 := le_log_sub_log 16769716 16768216 (by norm_num) (by norm_num)
  have hsum : (9002 : ℝ) ≤ 16777216 *
      (((16777216 : ℝ) - 16775716) / 16777216 + ((16775716 : ℝ) - 16774216) / 16775716 +
       ((16774216 : ℝ) - 16772716) / 16774216 + ((16772716 : ℝ) - 16771216) / 16772716 +
       ((16771216 : ℝ) - 16769716) / 16771216 + ((16769716 : ℝ) - 16768216) / 16769716) := by
    norm_num
  rw [hsplit]
  linarith

theorem lc24_upper : 16777216 * Real.log ((16777216 : ℝ) / 16768216) < 9003 := by
  have hsplit : Real.log ((16777216 : ℝ) / 16768216) =
      Real.log 16777216 - Real.log 16768216 := Real.log_div (by norm_num) (by norm_num)
  have u0 := log_sub_log_le 16777216 16775716 (by norm_num) (by norm_num)
  have u1 := log_sub_log_le 16775716 16774216 (by norm_num) (by norm_num)
  have u2 := log_sub_log_le 16774216 16772716 (by norm_num) (by norm_num)
  have u3 := log_sub_log_le 16772716 16771216 (by norm_num) (by norm_num)
  have u4 := log_sub_log_le 16771216 16769716 (by norm_num) (by norm_num)
  have u5 := log_sub_log_le 16769716 16768216 (by norm_num) (by norm_num)
  have hsum : 16777216 *
      (((16777216 : ℝ) - 16775716) / 16775716 + ((16775716 : ℝ) - 16774216) / 16774216 +
       ((16774216 : ℝ) - 16772716) / 16772716 + ((16772716 : ℝ) - 16771216) / 16771216 +
       ((16771216 : ℝ) - 16769716) / 16769716 + ((16769716 : ℝ) - 16768216) / 16768216)
      < 9003 := by
    norm_num
  rw [hsplit]
  linarith

/-- The same telescoping bounds for the claim's formula (`m = 2^25`). -/
theorem lc25_lower : (18001 / 2 : ℝ) ≤ 33554432 * Real.log ((33554432 : ℝ) / 33545432) := by
  have hsplit : Real.log ((33554432 : ℝ) / 33545432) =
      Real.log 33554432 - Real.log 33545432 := Real.log_div (by norm_num) (by norm_num)
  have d0 := le_log_sub_log 33554432 33552932 (by norm_num) (by norm_num)
  have d1 := le_log_sub_log 33552932 33551432 (by norm_num) (by norm_num)
  have d2 := le_log_sub_log 33551432 33549932 (by norm_num) (by norm_num)
  have d3 := le_log_sub_log 33549932 33548432 (by norm_num) (by norm_num)
  have d4 := le_log_sub_log 33548432 33546932 (by norm_num) (by norm_num)
  have d5 := le_log_sub_log 33546932 33545432 (by norm_num) (by norm_num)
  have hsum : (18001 / 2 : ℝ) ≤ 33554432 *
      (((33554432 : ℝ) - 33552932) / 33554432 + ((33552932 : ℝ) - 33551432) / 33552932 +
       ((33551432 : ℝ) - 33549932) / 33551432 + ((33549932 : ℝ) - 33548432) / 33549932 +
       ((33548432 : ℝ) - 33546932) / 33548432 + ((33546932 : ℝ) - 33545432) / 33546932) := by
    norm_num
  rw [hsplit]
  linarith

theorem lc25_upper : 33554432 * Real.log ((33554432 : ℝ) / 33545432) < 18003 / 2 := by
  have hsplit : Real.log ((33554432 : ℝ) / 33545432) =
      Real.log 33554432 - Real.log 33545432 := Real.log_div (by norm_num) (by norm_num)
  have u0 := log_sub_log_le 33554432 33552932 (by norm_num) (by norm_num)
  have u1 := log_sub_log_le 33552932 33551432 (by norm_num) (by norm_num)
  have u2 := log_sub_log_le 33551432 33549932 (by norm_num) (by norm_num)
  have u3 := log_sub_log_le 33549932 33548432 (by norm_num) (by norm_num)
  have u4 := log_sub_log_le 33548432 33546932 (by norm_num) (by norm_num)
  have u5 := log_sub_log_le 33546932 33545432 (by norm_num) (by norm_num)
  have hsum : 33554432 *
      (((33554432 : ℝ) - 33552932) / 33552932 + ((33552932 : ℝ) - 33551432) / 33551432 +
       ((33551432 : ℝ) - 33549932) / 33549932 + ((33549932 : ℝ) - 33548432) / 33548432 +
       ((33548432 : ℝ) - 33546932) / 33546932 + ((33546932 : ℝ) - 33545432) / 33545432)
      < 18003 / 2 := by
    norm_num
  rw [hsplit]
  linarith

theorem cardinality_st9000 : cardinality (fun _ => 0) st9000 = 9002 := by
  rw [cardinality_sparse_branch _ _ rfl]
  have hc : st9000.sparseList.card = 9000 := by simp [st9000]
  rw [hc, mPrime_eq]
  unfold linearCounting
  have hfl : ⌊(((16777216 : ℕ) : ℝ)) * Real.log (((16777216 : ℕ) : ℝ) /
      (((16777216 - 9000 : ℕ)) : ℝ))⌋ = 9002 := by
    have h1 := lc24_lower
    have h2 := lc24_upper
    rw [Int.floor_eq_iff]
    constructor
    · push_cast
      norm_num
      linarith
    · push_cast
      norm_num
      linarith
  rw [hfl]
  rfl

theorem claim_round_value :
    (round (linearCounting (2 ^ 25) (2 ^ 25 - st9000.sparseList.card))).toNat = 9001 := by
  have hc : st9000.sparseList.card = 9000 := by simp [st9000]
  rw [hc]
  unfold linearCounting
  have h1 := lc25_lower
  have h2 := lc25_upper
  have hr : round ((((2 ^ 25 : ℕ)) : ℝ) * Real.log ((((2 ^ 25 : ℕ)) : ℝ) /
      (((2 ^ 25 - 9000 : ℕ)) : ℝ))) = 9001 := by
    rw [round_eq, Int.floor_eq_iff]
    constructor
    · push_cast
      norm_num
      linarith
    · push_cast
      norm_num
      linarith
  rw [hr]
  rfl

/-- C1: the sparse-store uniqueness invariant fails on the code.  With the
`unordered_set` `SparseListType` and its `insert_hash` (a plain insert), after
`add(135000); add(178997)` on a sparse instance with `p = 18`, the store holds
two distinct encoded words (`0xa08bc00b` and `0xa08bc005`) whose top
`pPrime = 25` bits agree (sparse index `21043072`) — not at most one entry per
sparse index as claimed.  This theorem evaluates the code at that failing
input. -/
theorem C1_sparse_store_duplicate_index :
    ((((HyperLogLogPlusMinus 18 true).add 135000).add 178997).sparseList.filter
      (fun e => extractHighBits32 e pPrime = 21043072)).card = 2 := by
  decide

/-- C2: the sparse bin-count constant is `mPrime = 1 << (pPrime - 1) = 2^24`,
not `2^pPrime = 2^25` as the claim (and the source comment `// 2^pPrime`)
states. -/
theorem C2_mPrime_value : mPrime = 2 ^ 24 ∧ mPrime ≠ 2 ^ 25 := by
  decide

/-- C3: encode/decode round-trip.  For every 64-bit hash and every
`p ∈ [4, 18]`, decoding the 32-bit sparse encoding recovers the dense index
`h >> (64 - p)` and the dense rank `clz64((h << p) | ((1 << p) - 1)) + 1`
exactly. -/
theorem C3_encode_decode_roundtrip (h p : Nat) (hh : h < 2 ^ 64)
    (hp4 : 4 ≤ p) (hp18 : p ≤ 18) :
    (getIndexAndRankFromEncodedHash p (encodeHashIn32Bit p h)).1 = h >>> (64 - p) ∧
    (getIndexAndRankFromEncodedHash p (encodeHashIn32Bit p h)).2 =
      clz64 (((h <<< p) % 2 ^ 64) ||| ((1 <<< p) - 1)) + 1 := by
  rw [encode_decode_aux p h hh hp4 hp18]
  exact ⟨rfl, rfl⟩

/-- Witness for C3 at `h = 123456789`, `p = 12`. -/
theorem C3_encode_decode_roundtrip_witness :
    ((123456789 : Nat) < 2 ^ 64 ∧ 4 ≤ 12 ∧ 12 ≤ 18) ∧
    ((getIndexAndRankFromEncodedHash 12 (encodeHashIn32Bit 12 123456789)).1 =
        123456789 >>> (64 - 12) ∧
      (getIndexAndRankFromEncodedHash 12 (encodeHashIn32Bit 12 123456789)).2 =
        clz64 (((123456789 <<< 12) % 2 ^ 64) ||| ((1 <<< 12) - 1)) + 1) :=
  ⟨by decide, C3_encode_decode_roundtrip 123456789 12 (by decide) (by decide) (by decide)⟩

/-- C4 (amended): in sparse mode with `0 < |S| < 2^24`, `cardinality()`
returns the linear-counting value over the code's `mPrime = 2^24` bins,
truncated by the `uint64_t` cast — not rounded, and not over `2^25` bins. -/
theorem C4_sparse_cardinality_truncated (bias : ℝ → ℝ) (st : HLL)
    (hs : st.sparse = true) (h0 : 0 < st.sparseList.card)
    (h1 : st.sparseList.card < 2 ^ 24) :
    cardinality bias st =
      (⌊(2 ^ 24 : ℝ) * Real.log ((2 ^ 24 : ℝ) / ((2 ^ 24 : ℝ) - st.sparseList.card))⌋).toNat := by
  rw [cardinality_sparse_branch bias st hs, mPrime_eq]
  unfold linearCounting
  have hle : st.sparseList.card ≤ 16777216 := by omega
  have hcast : (((16777216 - st.sparseList.card : ℕ)) : ℝ) =
      (16777216 : ℝ) - st.sparseList.card := by
    rw [Nat.cast_sub hle]
    norm_num
  rw [hcast]
  norm_num

/-- Witness for C4 at the state with 9000 stored words. -/
theorem C4_sparse_cardinality_truncated_witness :
    (st9000.sparse = true ∧ 0 < st9000.sparseList.card ∧
      st9000.sparseList.card < 2 ^ 24) ∧
    cardinality (fun _ => 0) st9000 =
      (⌊(2 ^ 24 : ℝ) *
        Real.log ((2 ^ 24 : ℝ) / ((2 ^ 24 : ℝ) - st9000.sparseList.card))⌋).toNat :=
  ⟨⟨rfl, by simp [st9000], by simp [st9000]⟩,
    C4_sparse_cardinality_truncated (fun _ => 0) st9000 rfl
      (by simp [st9000]) (by simp [st9000])⟩

/-- Counterexample for C4 as stated: at `|S| = 9000` the code returns `9002`
(truncated linear counting over `2^24` bins), while the claimed value
`round(linearCount(2^25, 2^25 - |S|))` is `9001`. -/
theorem C4_round_counterexample :
    cardinality (fun _ => 0) st9000 ≠
      (round (linearCounting (2 ^ 25) (2 ^ 25 - st9000.sparseList.card))).toNat := by
  rw [cardinality_st9000, claim_round_value]
  norm_num

/-- C5: promotion equivalence.  For every key stream, promoting the
sparse-mode result (decode every stored word into fresh registers) yields
exactly the dense register array the same stream produces in an instance that
was dense from the start. -/
theorem C5_promotion_equivalence (p : Nat) (ks : List Nat) (h4 : 4 ≤ p) (h18 : p ≤ 18) :
    (if (ks.foldl HLL.add (HyperLogLogPlusMinus p true)).sparse then
        switchToNormalRepresentation (ks.foldl HLL.add (HyperLogLogPlusMinus p true))
      else ks.foldl HLL.add (HyperLogLogPlusMinus p true)).M =
      (ks.foldl HLL.add (HyperLogLogPlusMinus p false)).M := by
  obtain ⟨hSp, hDp, hDd, hSparse, hDense⟩ :=
    promoInv_fold p h4 h18 ks _ _ (promoInv_init p)
  by_cases hs : (ks.foldl HLL.add (HyperLogLogPlusMinus p true)).sparse = true
  · rw [if_pos hs]
    have hsw : (switchToNormalRepresentation
        (ks.foldl HLL.add (HyperLogLogPlusMinus p true))).M =
        addToRegisters (ks.foldl HLL.add (HyperLogLogPlusMinus p true)).p (fun _ => 0)
          (ks.foldl HLL.add (HyperLogLogPlusMinus p true)).sparseList := rfl
    rw [hsw, hSp]
    exact hSparse hs
  · rw [if_neg hs]
    have hs2 : (ks.foldl HLL.add (HyperLogLogPlusMinus p true)).sparse = false := by
      cases hb : (ks.foldl HLL.add (HyperLogLogPlusMinus p true)).sparse
      · rfl
      · exact absurd hb hs
    exact hDense hs2

/-- Witness for C5 at `p = 12` and the stream `[1, 2]`. -/
theorem C5_promotion_equivalence_witness :
    (4 ≤ 12 ∧ 12 ≤ 18) ∧
    (if (([1, 2] : List Nat).foldl HLL.add (HyperLogLogPlusMinus 12 true)).sparse then
        switchToNormalRepresentation
          (([1, 2] : List Nat).foldl HLL.add (HyperLogLogPlusMinus 12 true))
      else ([1, 2] : List Nat).foldl HLL.add (HyperLogLogPlusMinus 12 true)).M =
      (([1, 2] : List Nat).foldl HLL.add (HyperLogLogPlusMinus 12 false)).M :=
  ⟨by decide, C5_promotion_equivalence 12 [1, 2] (by decide) (by decide)⟩

/-- C6: `merge` fails exactly when the precisions differ, and on failure the
receiving state is completely unchanged (the throw happens before any
mutation). -/
theorem C6_merge_precision_guard (a other : HLL) :
    ((merge a other).2 = true ↔ a.p ≠ other.p) ∧
    ((merge a other).2 = true → (merge a other).1 = a) := by
  unfold merge
  by_cases h : a.p ≠ other.p
  · rw [if_pos h]
    exact ⟨⟨fun _ => h, fun _ => rfl⟩, fun _ => rfl⟩
  · rw [if_neg h]
    constructor
    · constructor
      · intro hcon
        simp at hcon
      · intro hcon
        exact absurd hcon h
    · intro hcon
      simp at hcon

/-- C7: `add` calls commute, in sparse and dense mode and across any
promotion triggered in between. -/
theorem C7_add_commutes (st : HLL) (k1 k2 : Nat) (h4 : 4 ≤ st.p) (h18 : st.p ≤ 18) :
    (st.add k1).add k2 = (st.add k2).add k1 :=
  add_comm_aux st k1 k2 h4 h18

/-- Witness for C7 on a fresh sparse instance with keys 3 and 4. -/
theorem C7_add_commutes_witness :
    (4 ≤ (HyperLogLogPlusMinus 12 true).p ∧ (HyperLogLogPlusMinus 12 true).p ≤ 18) ∧
    ((HyperLogLogPlusMinus 12 true).add 3).add 4 =
      ((HyperLogLogPlusMinus 12 true).add 4).add 3 :=
  ⟨by decide, C7_add_commutes (HyperLogLogPlusMinus 12 true) 3 4 (by decide) (by decide)⟩

/-- C8 (amended): for an all-zero dense register array, `ertlCardinality()`
returns 0; for an all-saturated array (`M[i] = 64 - p + 1`), the Ertl
denominator is exactly zero and the double quotient is `+inf` (never NaN) —
the result is not a finite value (the `uint64_t` cast of `+inf` is undefined
behaviour). -/
theorem C8_ertl_boundary (st : HLL) (hd : st.sparse = false) :
    ((∀ i, i < st.m → st.M i = 0) → ertlCardinality st = some 0) ∧
    ((∀ i, i < st.m → st.M i = 64 - st.p + 1) → ertlEstimate st = ⊤) := by
  constructor
  · intro hM
    exact ertlCardinality_of_estimate_zero st (ertlEstimate_dense_zero st hd hM)
  · intro hM
    exact ertlEstimate_dense_saturated st hd hM

/-- Witness for C8: the all-zero and all-saturated states at `p = 4`. -/
theorem C8_ertl_boundary_witness :
    (zeroHLL.sparse = false ∧ satHLL.sparse = false) ∧
    ertlCardinality zeroHLL = some 0 ∧ ertlEstimate satHLL = ⊤ :=
  ⟨⟨rfl, rfl⟩,
    (C8_ertl_boundary zeroHLL rfl).1 (fun _ _ => rfl),
    (C8_ertl_boundary satHLL rfl).2 (fun _ _ => rfl)⟩

/-- Counterexample for C8 as stated: on the all-saturated dense state the
code does not return a capped finite value — the estimate is `+inf` and the
final `uint64_t` conversion is undefined. -/
theorem C8_saturated_not_finite : ertlCardinality satHLL = none := by
  have h := ertlEstimate_dense_saturated satHLL rfl (fun _ _ => rfl)
  rw [ertlCardinality, if_pos h]

/-- C10: a freshly constructed sparse instance (any `p ∈ [4, 18]`), and any
instance after `reset()`, reports exactly 0 from both `cardinality()` and
`ertlCardinality()`. -/
theorem C10_empty_counter_zero (bias : ℝ → ℝ) (p : Nat) (st : HLL)
    (h4 : 4 ≤ p) (h18 : p ≤ 18) :
    (cardinality bias (HyperLogLogPlusMinus p true) = 0 ∧
      ertlCardinality (HyperLogLogPlusMinus p true) = some 0) ∧
    (cardinality bias st.reset = 0 ∧ ertlCardinality st.reset = some 0) := by
  refine ⟨⟨?_, ?_⟩, ?_, ?_⟩
  · exact cardinality_sparse_empty bias _ rfl rfl
  · exact ertlCardinality_of_estimate_zero _ (ertlEstimate_sparse_empty _ rfl rfl)
  · exact cardinality_sparse_empty bias _ rfl rfl
  · exact ertlCardinality_of_estimate_zero _ (ertlEstimate_sparse_empty _ rfl rfl)

/-- Witness for C10 at `p = 12` and an arbitrary dirty instance. -/
theorem C10_empty_counter_zero_witness :
    (4 ≤ 12 ∧ 12 ≤ 18) ∧
    ((cardinality (fun _ => 0) (HyperLogLogPlusMinus 12 true) = 0 ∧
        ertlCardinality (HyperLogLogPlusMinus 12 true) = some 0) ∧
      (cardinality (fun _ => 0) (HyperLogLogPlusMinus 5 false).reset = 0 ∧
        ertlCardinality (HyperLogLogPlusMinus 5 false).reset = some 0)) :=
  ⟨by decide,
    C10_empty_counter_zero (fun _ => 0) 12 (HyperLogLogPlusMinus 5 false)
      (by decide) (by decide)⟩

end HLLPP
